import Mathlib

/-!
Shallow embedding of `main_rm2.py`: the eligibility filter (`get_payout`),
the signal detector (`detect_signal`), the trade executor (`perform_trade`),
the martingale controller (`martingale_strategy`), the candle synchronizer
(`wait_until_next_candle`), and the per-cycle instrument scan of
`main_trading_loop`.
-/

namespace SUIT

/-! ### Configuration constants (module-level settings in the source) -/

def min_payout : Int := 60

def INITIAL_AMOUNT : Nat := 1

def MARTINGALE_LEVEL : Nat := 3

/-! ### Eligibility filter: `get_payout`

`global_value.pairs` is a Python dict keyed by pair name; Python dicts are
insertion-ordered, assigning to an existing key keeps its position, and
deleting a key removes it.  We model it as an ordered association list with
those semantics. -/

structure Entry where
  name : String
  asset_type : String
  payout : Int
  is_active : Bool
deriving DecidableEq, Repr

structure PairInfo where
  payout : Int
  type : String
deriving DecidableEq, Repr

abbrev Pairs := List (String × PairInfo)

/-- `d[k] = v` on a Python dict: overwrite in place if present, else append. -/
def dictSet (d : Pairs) (k : String) (v : PairInfo) : Pairs :=
  if d.any (fun p => p.1 = k) then
    d.map (fun p => if p.1 = k then (k, v) else p)
  else
    d ++ [(k, v)]

/-- `k in d` on a Python dict. -/
def dictContains (d : Pairs) (k : String) : Bool :=
  d.any (fun p => p.1 = k)

/-- `del d[k]` on a Python dict. -/
def dictDel (d : Pairs) (k : String) : Pairs :=
  d.filter (fun p => p.1 ≠ k)

/-- Python's `s.endswith(suff)`: a suffix test, modelled on the underlying
character list (`String.endsWith` does not reduce in the kernel). -/
def strEndsWith (s suff : String) : Bool :=
  suff.data.isSuffixOf s.data

/-- The inclusion test of `get_payout`:
`not name.endswith("_otc") and asset_type == "currency" and is_active`. -/
def passesChecks (e : Entry) : Bool :=
  !(strEndsWith e.name "_otc") && (e.asset_type == "currency") && e.is_active

/-- One iteration of the `for pair in d` loop body of `get_payout`. -/
def processEntry (pairs : Pairs) (e : Entry) : Pairs :=
  if passesChecks e then
    if e.payout ≥ min_payout then
      dictSet pairs e.name ⟨e.payout, e.asset_type⟩
    else if dictContains pairs e.name then
      dictDel pairs e.name
    else
      pairs
  else
    pairs

/-- A raw feed entry as accessed by the loop body: `none` models an entry on
which one of the field accesses `pair[1]`, `pair[5]`, `pair[3]`, `pair[14]`
(or `name.endswith`) raises. -/
abbrev RawEntry := Option Entry

/-- `global_value.PayoutData` as seen by `json.loads`: `none` models a string
that fails to parse as JSON (the exception is raised before the loop starts). -/
abbrev PayoutData := Option (List RawEntry)

/-- The `for` loop of `get_payout` with Python exception semantics: a raising
entry aborts the loop (the `except` branch returns `False`), but mutations
already made to the dict stay.  Returns the dict and the boolean return value. -/
def payoutLoop (pairs : Pairs) : List RawEntry → Pairs × Bool
  | [] => (pairs, true)
  | none :: _ => (pairs, false)
  | some e :: rest => payoutLoop (processEntry pairs e) rest

/-- `get_payout`, as a function of the prior dict state and the feed. -/
def get_payout (pairs : Pairs) (data : PayoutData) : Pairs × Bool :=
  match data with
  | none => (pairs, false)
  | some d => payoutLoop pairs d

/-- `true` when the feed is malformed somewhere: unparseable JSON, or some
entry raising on field access. -/
def feedMalformed (data : PayoutData) : Bool :=
  match data with
  | none => true
  | some d => d.any (fun r => r.isNone)

/-! ### Signal detector: `detect_signal`

A prepared dataframe is represented by its `signal` column (the discrete
difference of the SuperTrend direction column), which is the only column
`detect_signal` reads; rows are indexed `0 .. len-1` after `reset_index`.
The Python `(None, None)` return is modelled as `none`, and a
`(decision, df)` return as `some (decision, df)`. -/

def detect_signal (df : List Int) : Option (String × List Int) :=
  let latest_index := df.length - 1
  if latest_index < 2 then
    none
  else if df.getD latest_index 0 = 2 then
    some ("call", df)
  else if df.getD latest_index 0 = -2 then
    some ("put", df)
  else
    none

/-! ### Trade executor: `perform_trade` -/

inductive BrokerAction where
  | logFailure
  | disconnect
  | pause
  | reconnect
deriving DecidableEq, Repr

/-- The result of `api.buy`: `(accepted, trade_id)`. -/
abbrev BuyResult := Bool × Option Nat

/-- `perform_trade`, as a function of the broker's `buy` result and of the
result string that `api.check_win` reports for a trade id (only the `[1]`
component of `check_win`'s return value is read by the caller).  Returns the
value returned to the caller (`none` = the Python `return None`) together
with the broker actions performed on the failure path. -/
def perform_trade (buyResult : BuyResult) (check_win : Nat → String) :
    Option String × List BrokerAction :=
  match buyResult with
  | (false, _) =>
      (none, [.logFailure, .disconnect, .pause, .reconnect])
  | (true, none) =>
      (none, [.logFailure, .disconnect, .pause, .reconnect])
  | (true, some trade_id) =>
      (some (check_win trade_id), [])

/-! ### Martingale controller: `martingale_strategy`

The i-th call to `perform_trade` is modelled by `oracle i`: `none` is a
placement failure (`perform_trade` returned `None`), `some s` an outcome
whose result string is `s` (`"loose"` = loss). -/

inductive MartState where
  | Won
  | Lost
  | Aborted
deriving DecidableEq, Repr

/-- The ladder loop of `martingale_strategy`, entered having just placed the
attempt at the given level and stake (`amount`): returns the stakes passed to
this and all subsequent `perform_trade` calls, and the terminal state. -/
def martingaleFrom (oracle : Nat → Option String) (levelCap : Nat)
    (idx level amount : Nat) : List Nat × MartState :=
  match oracle idx with
  | none => ([amount], .Aborted)
  | some r =>
    if r = "loose" then
      if h : level < levelCap then
        let next := martingaleFrom oracle levelCap (idx + 1) (level + 1) (amount * 2)
        (amount :: next.1, next.2)
      else
        ([amount], .Lost)
    else
      ([amount], .Won)
termination_by levelCap - level
decreasing_by
  simp_wf
  omega

/-- A martingale ladder from a given base stake and level cap:
`amount = baseStake`, `level = 1`, then the escalation loop. -/
def martingaleLadder (baseStake levelCap : Nat)
    (oracle : Nat → Option String) : List Nat × MartState :=
  martingaleFrom oracle levelCap 0 1 baseStake

/-- `martingale_strategy` with the source's constants
(`INITIAL_AMOUNT = 1`, `MARTINGALE_LEVEL = 3`). -/
def martingale_strategy (oracle : Nat → Option String) : List Nat × MartState :=
  martingaleLadder INITIAL_AMOUNT MARTINGALE_LEVEL oracle

/-! ### Candle synchronizer: `wait_until_next_candle`

Wall-clock time is modelled as a rational number of seconds since the epoch;
`//` is Python float floor division. -/

/-- `next_candle` as recomputed on each poll of the loop:
`((now.timestamp() // period_seconds) + 1) * period_seconds`. -/
def next_candle (now period_seconds : ℚ) : ℚ :=
  (⌊now / period_seconds⌋ + 1) * period_seconds

/-- The break condition of the polling loop:
`now.timestamp() >= next_candle - seconds_before`. -/
def candleBreak (now period_seconds seconds_before : ℚ) : Prop :=
  next_candle now period_seconds - seconds_before ≤ now

/-- `b` is the smallest multiple of `p` that is `≥ t`. -/
def isLeastMultipleGE (p t b : ℚ) : Prop :=
  (∃ k : ℤ, b = k * p) ∧ t ≤ b ∧ ∀ m : ℚ, (∃ k : ℤ, m = k * p) → t ≤ m → b ≤ m

/-- `b` is the smallest multiple of `p` that is `> t`. -/
def isLeastMultipleGT (p t b : ℚ) : Prop :=
  (∃ k : ℤ, b = k * p) ∧ t < b ∧ ∀ m : ℚ, (∃ k : ℤ, m = k * p) → t < m → b ≤ m

/-! ### Cycle orchestrator: the instrument scan of `main_trading_loop` -/

/-- What one iteration of the scan computes for a pair: `fetch` models
`prepare_data (get_oanda_candles (oanda_pair))`, returning the prepared
signal column, or `none` on fetch failure (the iteration `continue`s). -/
def sigOf (fetch : String → Option (List Int)) (p : String) :
    Option (String × List Int) :=
  match fetch p with
  | none => none
  | some df => detect_signal df

/-- The `for pair in list(global_value.pairs.keys())` scan: the first pair
whose fetched series yields a decision is selected (`break`); fetch failures
and no-signal pairs are skipped. -/
def scanPairs (fetch : String → Option (List Int)) :
    List String → Option (String × String × List Int)
  | [] => none
  | p :: rest =>
    match fetch p with
    | none => scanPairs fetch rest
    | some df =>
      match detect_signal df with
      | some (decision, signal_df) => some (p, decision, signal_df)
      | none => scanPairs fetch rest

/-! ### Dict membership lemmas -/

lemma dictContains_dictSet (d : Pairs) (k : String) (v : PairInfo) (m : String) :
    dictContains (dictSet d k v) m = true ↔ (dictContains d m = true ∨ m = k) := by
  unfold dictContains dictSet
  by_cases hk : d.any (fun p => p.1 = k) = true
  · simp only [hk, if_true]
    obtain ⟨q, hq, hqk⟩ : ∃ p ∈ d, p.1 = k := by simpa [List.any_eq_true] using hk
    simp only [List.any_eq_true, List.mem_map, decide_eq_true_eq]
    constructor
    · rintro ⟨p, ⟨p0, hp0, rfl⟩, hpm⟩
      by_cases hpk : p0.1 = k <;> simp [hpk] at hpm
      · exact Or.inr hpm.symm
      · exact Or.inl ⟨p0, hp0, hpm⟩
    · rintro (⟨p, hp, hpm⟩ | rfl)
      · by_cases hpk : p.1 = k
        · exact ⟨(k, v), ⟨p, hp, by simp [hpk]⟩, by simp [← hpm, hpk]⟩
        · exact ⟨p, ⟨p, hp, by simp [hpk]⟩, hpm⟩
      · exact ⟨(m, v), ⟨q, hq, by simp [hqk]⟩, rfl⟩
  · simp only [hk, if_false]
    simp [List.any_eq_true, List.mem_append]
    exact or_congr Iff.rfl eq_comm

lemma dictContains_dictDel (d : Pairs) (k m : String) :
    dictContains (dictDel d k) m = true ↔ (dictContains d m = true ∧ m ≠ k) := by
  unfold dictContains dictDel
  simp [List.any_eq_true, List.mem_filter]

/-- Membership in the eligible dict after one loop iteration: an entry that
passes the name/type/active checks sets its own name's membership to
`payout ≥ min_payout`; everything else is untouched. -/
lemma dictContains_processEntry (d : Pairs) (e : Entry) (m : String) :
    dictContains (processEntry d e) m =
      if passesChecks e = true ∧ e.name = m then decide (e.payout ≥ min_payout)
      else dictContains d m := by
  apply Bool.eq_iff_iff.mpr
  unfold processEntry
  by_cases hp : passesChecks e = true
  · simp only [hp, if_true]
    by_cases hpay : e.payout ≥ min_payout
    · rw [if_pos hpay]
      rw [dictContains_dictSet]
      by_cases hnm : e.name = m
      · simp [hnm, hp, hpay]
      · have hme : ¬ m = e.name := fun h => hnm h.symm
        simp [hnm, hme]
    · rw [if_neg hpay]
      by_cases hc : dictContains d e.name = true
      · simp only [hc, if_true]
        rw [dictContains_dictDel]
        by_cases hnm : e.name = m
        · simp [hnm, hp, hpay, hc]
        · have hme : ¬ m = e.name := fun h => hnm h.symm
          simp [hnm, hme]
      · simp only [hc, if_false]
        by_cases hnm : e.name = m
        · subst hnm
          simp only [hp, hpay, true_and, if_true]
          simp only [Bool.not_eq_true] at hc
          simp [hc, hpay]
        · simp [hnm, hp]
  · simp [hp]

/-! ### Eligibility filter lemmas and claims -/

/-- On a feed whose entries are all well-formed, `get_payout`'s loop runs to
completion: it folds `processEntry` over the entries and returns `True`. -/
lemma payoutLoop_wellFormed (es : List Entry) : ∀ pairs : Pairs,
    payoutLoop pairs (es.map some) = (es.foldl processEntry pairs, true) := by
  induction es with
  | nil =>
    intro pairs
    rfl
  | cons e rest ih =>
    intro pairs
    simp only [List.map_cons, List.foldl_cons, payoutLoop]
    exact ih (processEntry pairs e)

/-- Membership after the whole loop, as a fold of the per-entry update. -/
lemma foldl_processEntry_contains (es : List Entry) : ∀ (pairs : Pairs) (name : String),
    dictContains (es.foldl processEntry pairs) name =
      es.foldl
        (fun b e =>
          if passesChecks e = true ∧ e.name = name then decide (e.payout ≥ min_payout) else b)
        (dictContains pairs name) := by
  induction es with
  | nil =>
    intro pairs name
    rfl
  | cons e rest ih =>
    intro pairs name
    simp only [List.foldl_cons]
    rw [ih (processEntry pairs e) name, dictContains_processEntry]

/-- A feed entry that is inactive, for an instrument already in the set. -/
def staleEntry : Entry := ⟨"EURUSD", "currency", 75, false⟩

/-- A dict that already contains that instrument. -/
def stalePairs : Pairs := [("EURUSD", ⟨75, "currency"⟩)]

/-- C1 fails on the code: a refresh over a well-formed feed succeeds, the
only feed entry for `EURUSD` has `is_active = false` (so it fails one of the
four conditions), yet `EURUSD` — previously eligible — is still in the set:
entries failing the name/type/active checks never delete anything. -/
theorem C1_counterexample :
    staleEntry.is_active = false
    ∧ get_payout stalePairs (some [some staleEntry]) = (stalePairs, true)
    ∧ dictContains stalePairs "EURUSD" = true := by
  decide

/-- C1 (amended): a refresh over a well-formed feed succeeds, and each name's
membership afterwards is the fold of the per-entry rule: an entry passing the
name/type/active checks for that very name sets membership to
`payout ≥ min_payout` (adding or removing it); every other entry — in
particular one failing the name, asset-class or active check — leaves the
name's membership unchanged, even if it was previously eligible. -/
theorem C1_eligibility_membership (pairs : Pairs) (es : List Entry) (name : String) :
    (get_payout pairs (some (es.map some))).2 = true
    ∧ dictContains (get_payout pairs (some (es.map some))).1 name =
        es.foldl
          (fun b e =>
            if passesChecks e = true ∧ e.name = name then decide (e.payout ≥ min_payout) else b)
          (dictContains pairs name) := by
  have hgp : get_payout pairs (some (es.map some)) = payoutLoop pairs (es.map some) := rfl
  rw [hgp, payoutLoop_wellFormed]
  exact ⟨rfl, foldl_processEntry_contains es pairs name⟩

/-- A well-formed feed entry that passes every condition. -/
def okEntry : Entry := ⟨"EURUSD", "currency", 75, true⟩

/-- C6 fails on the code: a malformed feed whose first entry is well-formed
makes `get_payout` return false, but the set is mutated anyway — the first
entry was already processed when the exception hit the second. -/
theorem C6_counterexample :
    feedMalformed (some [some okEntry, none]) = true
    ∧ (get_payout [] (some [some okEntry, none])).2 = false
    ∧ (get_payout [] (some [some okEntry, none])).1 ≠ [] := by
  decide

/-- C6 (amended): `get_payout` returns false on a malformed feed, and the set
is left unchanged when the JSON itself fails to parse; but when a malformed
entry is hit mid-feed, the entries before it have already been folded into
the set (partial mutation). -/
theorem C6_malformed_feed (pairs : Pairs) (good : List Entry) (rest : List RawEntry) :
    get_payout pairs none = (pairs, false)
    ∧ get_payout pairs (some (good.map some ++ none :: rest))
        = (good.foldl processEntry pairs, false) := by
  refine ⟨rfl, ?_⟩
  unfold get_payout
  induction good generalizing pairs with
  | nil => rfl
  | cons e g ih =>
    simp only [List.map_cons, List.cons_append, payoutLoop, List.foldl_cons]
    exact ih (processEntry pairs e)

/-- C9: an entry failing the over-the-counter name check, the asset-class
check or the active check leaves the whole dict (membership and stored
payouts) untouched; and when a previously present name disappears from the
dict after processing an entry, that entry passed all three checks, named
that instrument, and had a payout below the threshold. -/
theorem C9_filter_frame (pairs : Pairs) (e : Entry) (q : Pairs) (f : Entry) (name : String)
    (h : strEndsWith e.name "_otc" = true ∨ e.asset_type ≠ "currency" ∨ e.is_active = false)
    (h2 : dictContains q name = true)
    (h3 : dictContains (processEntry q f) name = false) :
    processEntry pairs e = pairs
    ∧ passesChecks f = true ∧ f.name = name ∧ f.payout < min_payout := by
  have hpass : passesChecks e = false := by
    unfold passesChecks
    rcases h with h | h | h
    · simp [h]
    · simp [h]
    · simp [h]
  rw [dictContains_processEntry] at h3
  by_cases hc : passesChecks f = true ∧ f.name = name
  · rw [if_pos hc] at h3
    refine ⟨by simp [processEntry, hpass], hc.1, hc.2, ?_⟩
    have hge := of_decide_eq_false h3
    omega
  · rw [if_neg hc, h2] at h3
    exact absurd h3 (by simp)

/-! ### Scenario oracles -/

/-- An oracle reading successive `perform_trade` results off a list
(`none` past its end). -/
def outcomesOf (l : List (Option String)) : Nat → Option String :=
  fun i => l.getD i none

/-- An oracle whose every attempt settles as a loss. -/
def allLoose : Nat → Option String :=
  fun _ => some "loose"

/-! ### Unfolding lemmas for the martingale ladder -/

lemma martingaleFrom_abort {oracle : Nat → Option String} {levelCap idx : Nat}
    (level amount : Nat) (h : oracle idx = none) :
    martingaleFrom oracle levelCap idx level amount = ([amount], .Aborted) := by
  rw [martingaleFrom, h]

lemma martingaleFrom_won {oracle : Nat → Option String} {levelCap idx : Nat}
    (level amount : Nat) {r : String} (h : oracle idx = some r) (hr : r ≠ "loose") :
    martingaleFrom oracle levelCap idx level amount = ([amount], .Won) := by
  rw [martingaleFrom, h]
  simp [hr]

lemma martingaleFrom_lost {oracle : Nat → Option String} {levelCap idx level : Nat}
    (amount : Nat) (h : oracle idx = some "loose") (hl : ¬ level < levelCap) :
    martingaleFrom oracle levelCap idx level amount = ([amount], .Lost) := by
  rw [martingaleFrom, h]
  simp [hl]

lemma martingaleFrom_escalate {oracle : Nat → Option String} {levelCap idx level : Nat}
    (amount : Nat) (h : oracle idx = some "loose") (hl : level < levelCap) :
    martingaleFrom oracle levelCap idx level amount =
      (amount :: (martingaleFrom oracle levelCap (idx + 1) (level + 1) (amount * 2)).1,
        (martingaleFrom oracle levelCap (idx + 1) (level + 1) (amount * 2)).2) := by
  rw [martingaleFrom, h]
  simp [hl]

/-- Each stake on the ladder doubles the previous one: the i-th attempt
(counting from 0) is placed with `amount * 2 ^ i`. -/
lemma martingaleFrom_stakes (oracle : Nat → Option String) (levelCap idx level amount : Nat) :
    ∀ i, i < (martingaleFrom oracle levelCap idx level amount).1.length →
      (martingaleFrom oracle levelCap idx level amount).1.getD i 0 = amount * 2 ^ i := by
  induction idx, level, amount using martingaleFrom.induct oracle levelCap with
  | case1 idx level amount h =>
    rw [martingaleFrom_abort level amount h]
    intro i hi
    simp only [List.length_cons, List.length_nil] at hi
    have hi0 : i = 0 := by omega
    subst hi0
    simp
  | case2 idx level amount h hl ih =>
    rw [martingaleFrom_escalate amount hl h]
    intro i hi
    match i with
    | 0 => simp
    | n + 1 =>
      simp only [List.getD_cons_succ]
      rw [ih n (by simpa using hi)]
      ring
  | case3 idx level amount h hl =>
    rw [martingaleFrom_lost amount hl h]
    intro i hi
    simp only [List.length_cons, List.length_nil] at hi
    have hi0 : i = 0 := by omega
    subst hi0
    simp
  | case4 idx level amount r h hr =>
    rw [martingaleFrom_won level amount h hr]
    intro i hi
    simp only [List.length_cons, List.length_nil] at hi
    have hi0 : i = 0 := by omega
    subst hi0
    simp

/-- The ladder loop performs at most `levelCap - level + 1` further attempts. -/
lemma martingaleFrom_length (oracle : Nat → Option String) (levelCap idx level amount : Nat) :
    (martingaleFrom oracle levelCap idx level amount).1.length ≤ levelCap - level + 1 := by
  induction idx, level, amount using martingaleFrom.induct oracle levelCap with
  | case1 idx level amount h =>
    rw [martingaleFrom_abort level amount h]
    simp
  | case2 idx level amount h hl ih =>
    rw [martingaleFrom_escalate amount hl h]
    simp only [List.length_cons]
    omega
  | case3 idx level amount h hl =>
    rw [martingaleFrom_lost amount hl h]
    simp
  | case4 idx level amount r h hr =>
    rw [martingaleFrom_won level amount h hr]
    simp

/-- C2: the stake of the i-th attempt of a ladder (level `L = i + 1`) is
`baseStake * 2 ^ i = baseStake * 2 ^ (L - 1)`; and with `baseStake = 1`,
`levelCap = 3` and outcomes loss, loss, win, the attempted stakes are
`[1, 2, 4]` and the ladder ends `Won`. -/
theorem C2_stake_escalation (baseStake levelCap : Nat) (oracle : Nat → Option String)
    (i : Nat) (hi : i < (martingaleLadder baseStake levelCap oracle).1.length) :
    (martingaleLadder baseStake levelCap oracle).1.getD i 0 = baseStake * 2 ^ i
    ∧ martingaleLadder 1 3 (outcomesOf [some "loose", some "loose", some "win"])
        = ([1, 2, 4], MartState.Won) := by
  constructor
  · exact martingaleFrom_stakes oracle levelCap 0 1 baseStake i hi
  · simp [martingaleLadder, martingaleFrom, outcomesOf]

theorem C2_stake_escalation_witness :
    2 < (martingaleLadder 1 3 (outcomesOf [some "loose", some "loose", some "win"])).1.length
    ∧ ((martingaleLadder 1 3 (outcomesOf [some "loose", some "loose", some "win"])).1.getD 2 0
          = 1 * 2 ^ 2
        ∧ martingaleLadder 1 3 (outcomesOf [some "loose", some "loose", some "win"])
            = ([1, 2, 4], MartState.Won)) :=
  ⟨by simp [martingaleLadder, martingaleFrom, outcomesOf],
    C2_stake_escalation 1 3 (outcomesOf [some "loose", some "loose", some "win"]) 2
      (by simp [martingaleLadder, martingaleFrom, outcomesOf])⟩

/-- C3: a ladder performs at most `levelCap` attempts (for any positive cap);
and with cap 3 and every outcome a loss, exactly the stakes `[1, 2, 4]` are
attempted — no 4th call is made even though the oracle would answer it —
and the ladder ends `Lost`. -/
theorem C3_attempt_cap (baseStake levelCap : Nat) (oracle : Nat → Option String)
    (hcap : 1 ≤ levelCap) :
    (martingaleLadder baseStake levelCap oracle).1.length ≤ levelCap
    ∧ martingaleLadder 1 3 allLoose = ([1, 2, 4], MartState.Lost) := by
  constructor
  · have := martingaleFrom_length oracle levelCap 0 1 baseStake
    unfold martingaleLadder
    omega
  · simp [martingaleLadder, martingaleFrom, allLoose]

theorem C3_attempt_cap_witness :
    1 ≤ 3
    ∧ ((martingaleLadder 1 3 allLoose).1.length ≤ 3
        ∧ martingaleLadder 1 3 allLoose = ([1, 2, 4], MartState.Lost)) :=
  ⟨by decide, C3_attempt_cap 1 3 allLoose (by decide)⟩

/-- C5: on a rejected placement or a missing trade id, `perform_trade` logs,
disconnects, pauses, reconnects and returns `None`; and a ladder whose first
attempt gets `None` ends `Aborted` with exactly one attempt recorded. -/
theorem C5_placement_failure (buyResult : BuyResult) (check_win : Nat → String)
    (baseStake levelCap : Nat) (oracle : Nat → Option String)
    (hfail : buyResult.1 = false ∨ buyResult.2 = none) (h0 : oracle 0 = none) :
    perform_trade buyResult check_win =
      (none, [BrokerAction.logFailure, BrokerAction.disconnect,
        BrokerAction.pause, BrokerAction.reconnect])
    ∧ martingaleLadder baseStake levelCap oracle = ([baseStake], MartState.Aborted) := by
  constructor
  · obtain ⟨b, t⟩ := buyResult
    match b, t with
    | false, _ => rfl
    | true, none => rfl
    | true, some tid => simp at hfail
  · exact martingaleFrom_abort 1 baseStake h0

theorem C5_placement_failure_witness :
    ((((false, none) : BuyResult).1 = false ∨ ((false, none) : BuyResult).2 = none)
      ∧ outcomesOf [] 0 = none)
    ∧ (perform_trade (false, none) (fun _ => "win") =
        (none, [BrokerAction.logFailure, BrokerAction.disconnect,
          BrokerAction.pause, BrokerAction.reconnect])
      ∧ martingaleLadder 1 3 (outcomesOf []) = ([1], MartState.Aborted)) :=
  ⟨⟨Or.inl rfl, rfl⟩,
    C5_placement_failure (false, none) (fun _ => "win") 1 3 (outcomesOf [])
      (Or.inl rfl) rfl⟩

/-- C10: any settled result string other than `"loose"` — e.g. a draw —
stops the ladder right there and is reported as a win: the loop exits and
the `result[1] != 'loose'` branch logs WIN. -/
theorem C10_nonloss_treated_as_win (oracle : Nat → Option String)
    (levelCap idx level amount : Nat) (s : String)
    (h : oracle idx = some s) (hs : s ≠ "loose") :
    martingaleFrom oracle levelCap idx level amount = ([amount], MartState.Won)
    ∧ martingaleLadder 1 3 (outcomesOf [some "draw"]) = ([1], MartState.Won) := by
  constructor
  · exact martingaleFrom_won level amount h hs
  · exact martingaleFrom_won 1 1 rfl (by decide)

theorem C10_nonloss_treated_as_win_witness :
    (outcomesOf [some "draw"] 0 = some "draw" ∧ "draw" ≠ "loose")
    ∧ (martingaleFrom (outcomesOf [some "draw"]) 3 0 1 1 = ([1], MartState.Won)
      ∧ martingaleLadder 1 3 (outcomesOf [some "draw"]) = ([1], MartState.Won)) :=
  ⟨⟨rfl, by decide⟩,
    C10_nonloss_treated_as_win (outcomesOf [some "draw"]) 3 0 1 1 "draw" rfl (by decide)⟩

/-! ### Signal detector claim -/

/-- C4: `detect_signal` classifies only the last row of the prepared series:
it answers call exactly when the series has at least 3 rows and the last
`signal` value is `+2`, put exactly when it is `-2`, and no signal (not an
error) otherwise — in particular always for series shorter than 3 rows. -/
theorem C4_signal_classification (df : List Int) :
    (detect_signal df = some ("call", df) ↔ 3 ≤ df.length ∧ df.getD (df.length - 1) 0 = 2)
    ∧ (detect_signal df = some ("put", df) ↔ 3 ≤ df.length ∧ df.getD (df.length - 1) 0 = -2)
    ∧ (detect_signal df = none ↔
        df.length < 3 ∨ (df.getD (df.length - 1) 0 ≠ 2 ∧ df.getD (df.length - 1) 0 ≠ -2)) := by
  simp only [detect_signal, List.getD_eq_getElem?_getD]
  by_cases h1 : df.length - 1 < 2
  · have h3 : ¬ 3 ≤ df.length := by omega
    have h3l : df.length < 3 := by omega
    simp [h1, h3, h3l]
  · have h3 : 3 ≤ df.length := by omega
    have h3l : ¬ df.length < 3 := by omega
    by_cases h2 : df[df.length - 1]?.getD 0 = 2
    · simp [h1, h2, h3, h3l]
    · by_cases h4 : df[df.length - 1]?.getD 0 = -2
      · simp [h1, h2, h4, h3, h3l]
      · simp [h1, h2, h4, h3, h3l]

/-! ### Candle synchronizer claims -/

/-- C7 fails on the code: at a poll time landing exactly on a boundary (e.g.
`now = 60`, `period = 60`) the smallest multiple of the period `≥ now` is
`now` itself, but the code computes the following boundary, `120`. -/
theorem C7_counterexample :
    isLeastMultipleGE 60 60 60 ∧ next_candle 60 60 ≠ 60 := by
  constructor
  · exact ⟨⟨1, by norm_num⟩, le_refl _, fun m hm hge => hge⟩
  · unfold next_candle
    have h : ((60 : ℚ) / 60) = 1 := by norm_num
    rw [h, Int.floor_one]
    norm_num

/-- C7 (amended): the boundary `((now // p) + 1) * p` is the smallest
multiple of `p` strictly greater than `now` (computed from the epoch
timestamp, for any positive `p`), and the wait releases exactly when `now`
reaches that boundary minus `seconds_before`. -/
theorem C7_boundary (now p lead : ℚ) (hp : 0 < p) :
    isLeastMultipleGT p now (next_candle now p)
    ∧ (candleBreak now p lead ↔ next_candle now p - lead ≤ now) := by
  refine ⟨⟨⟨⌊now / p⌋ + 1, by push_cast [next_candle]; ring⟩, ?_, ?_⟩, Iff.rfl⟩
  · have h1 : now / p < (⌊now / p⌋ : ℚ) + 1 := Int.lt_floor_add_one _
    have h2 := (div_lt_iff₀ hp).mp h1
    unfold next_candle
    linarith
  · rintro m ⟨k, rfl⟩ hm
    have hdiv : now / p < (k : ℚ) := (div_lt_iff₀ hp).mpr hm
    have hfloor : (⌊now / p⌋ + 1 : ℤ) ≤ k := Int.floor_lt.mpr hdiv
    have hq : ((⌊now / p⌋ + 1 : ℤ) : ℚ) ≤ (k : ℚ) := by exact_mod_cast hfloor
    have hmul := mul_le_mul_of_nonneg_right hq hp.le
    unfold next_candle
    push_cast at hmul ⊢
    linarith

theorem C7_boundary_witness :
    (0 : ℚ) < 60
    ∧ (isLeastMultipleGT 60 100 (next_candle 100 60)
      ∧ (candleBreak 100 60 15 ↔ next_candle 100 60 - 15 ≤ 100)) :=
  ⟨by norm_num, C7_boundary 100 60 15 (by norm_num)⟩

/-! ### Cycle orchestrator claim -/

lemma scanPairs_cons (fetch : String → Option (List Int)) (k : String) (rest : List String) :
    scanPairs fetch (k :: rest) =
      (match sigOf fetch k with
        | some (d, df) => some (k, d, df)
        | none => scanPairs fetch rest) := by
  cases hf : fetch k with
  | none => simp [scanPairs, sigOf, hf]
  | some df =>
    cases hd : detect_signal df with
    | none => simp [scanPairs, sigOf, hf, hd]
    | some pr =>
      obtain ⟨d, sdf⟩ := pr
      simp [scanPairs, sigOf, hf, hd]

/-- C8: the scan walks the eligible dict's keys in their stored (insertion)
order and selects exactly the first key whose fetched series yields a
decision: a selection of `p` splits the key list into a prefix of keys with
no signal (fetch failure or no decision), then `p`; everything after `p` is
never examined, and the `Option` result feeds at most one ladder per cycle. -/
theorem C8_first_signal_wins (fetch : String → Option (List Int)) (keys : List String)
    (p decision : String) (df : List Int) :
    scanPairs fetch keys = some (p, decision, df) ↔
      ∃ pre post, keys = pre ++ p :: post
        ∧ (∀ q ∈ pre, sigOf fetch q = none)
        ∧ sigOf fetch p = some (decision, df) := by
  induction keys with
  | nil =>
    constructor
    · intro h
      simp [scanPairs] at h
    · rintro ⟨pre, post, hkeys, -, -⟩
      exact absurd hkeys (by simp)
  | cons k rest ih =>
    rw [scanPairs_cons]
    cases hk : sigOf fetch k with
    | some pr =>
      obtain ⟨d0, df0⟩ := pr
      simp only []
      constructor
      · intro h
        simp only [Option.some.injEq, Prod.mk.injEq] at h
        obtain ⟨rfl, rfl, rfl⟩ := h
        exact ⟨[], rest, rfl, by simp, hk⟩
      · rintro ⟨pre, post, hkeys, hpre, hsig⟩
        cases pre with
        | nil =>
          simp only [List.nil_append, List.cons.injEq] at hkeys
          obtain ⟨rfl, rfl⟩ := hkeys
          rw [hk] at hsig
          simp only [Option.some.injEq, Prod.mk.injEq] at hsig
          obtain ⟨rfl, rfl⟩ := hsig
          rfl
        | cons a pre2 =>
          simp only [List.cons_append, List.cons.injEq] at hkeys
          obtain ⟨rfl, -⟩ := hkeys
          have hnone := hpre k (by simp)
          rw [hk] at hnone
          exact absurd hnone (by simp)
    | none =>
      rw [ih]
      constructor
      · rintro ⟨pre, post, rfl, hpre, hsig⟩
        refine ⟨k :: pre, post, rfl, ?_, hsig⟩
        intro q hq
        rcases List.mem_cons.mp hq with rfl | hq2
        · exact hk
        · exact hpre q hq2
      · rintro ⟨pre, post, hkeys, hpre, hsig⟩
        cases pre with
        | nil =>
          simp only [List.nil_append, List.cons.injEq] at hkeys
          obtain ⟨rfl, rfl⟩ := hkeys
          rw [hk] at hsig
          exact absurd hsig (by simp)
        | cons a pre2 =>
          simp only [List.cons_append, List.cons.injEq] at hkeys
          obtain ⟨rfl, hrest⟩ := hkeys
          exact ⟨pre2, post, hrest, fun q hq => hpre q (by simp [hq]), hsig⟩

/-! ### Witness data for the filter frame claim -/

/-- An over-the-counter variant entry (fails the name check). -/
def otcEntry : Entry := ⟨"EURUSD_otc", "currency", 75, true⟩

/-- An entry passing all three checks but with payout below the threshold. -/
def lowEntry : Entry := ⟨"EURUSD", "currency", 50, true⟩

theorem C9_filter_frame_witness :
    ((strEndsWith otcEntry.name "_otc" = true ∨ otcEntry.asset_type ≠ "currency"
        ∨ otcEntry.is_active = false)
      ∧ dictContains stalePairs "EURUSD" = true
      ∧ dictContains (processEntry stalePairs lowEntry) "EURUSD" = false)
    ∧ (processEntry [] otcEntry = []
      ∧ passesChecks lowEntry = true ∧ lowEntry.name = "EURUSD"
      ∧ lowEntry.payout < min_payout) :=
  ⟨⟨by decide, by decide, by decide⟩,
    C9_filter_frame [] otcEntry stalePairs lowEntry "EURUSD" (by decide) (by decide)
      (by decide)⟩

end SUIT
